import Mathlib

/-!
Verification of the hush audio-capture pipeline (src/utils.rs, src/main.rs)
against its natural-language specification.

Samples are the `f32` values flowing through the pipeline; since the code
only stores, moves and (identically) converts them, they are modelled as
rationals.  Stateful Rust code is embedded as explicit state passing;
indexed stores that can panic are embedded as `Option`-returning functions.
-/

set_option autoImplicit false

namespace Hush

/-- Sample values (`f32` in the source), modelled as rationals. -/
abbrev Sample := ℚ

/-- The `Buffer` struct of src/utils.rs: a transcription window buffer with
a model path, a fixed-size storage vector and a write cursor.  The
`dispatched` field is ghost state recording, in order, each window handed to
`transcribe` (i.e. to the inference engine). -/
structure Buffer where
  model : String
  data : List Sample
  pos : Nat
  dispatched : List (List Sample)
deriving DecidableEq

/-- `Buffer::new` (src/utils.rs lines 17-23): storage is `size` zeros, the
cursor starts at 0.  No window has been dispatched yet. -/
def Buffer.new (model : String) (size : Nat) : Buffer :=
  { model := model, data := List.replicate size 0, pos := 0, dispatched := [] }

/-- State effect of `Buffer::transcribe` (src/utils.rs lines 38-55): the
current storage is run through the inference engine (recorded in the ghost
`dispatched` trace) and the storage is then reset to all zeros of the same
length.  The cursor is untouched by `transcribe` itself. -/
def Buffer.transcribe (b : Buffer) : Buffer :=
  { b with data := List.replicate b.data.length 0,
           dispatched := b.dispatched ++ [b.data] }

/-- `Buffer::push` (src/utils.rs lines 25-36): store `input` at the cursor
(`self.data[self.pos] = input`, a panicking indexed store, hence `none` when
the cursor is out of bounds), advance the cursor, and when the advanced
cursor equals `data.len() - 1` reset the cursor to 0 and call `transcribe`. -/
def Buffer.push (b : Buffer) (input : Sample) : Option Buffer :=
  if _h : b.pos < b.data.length then
    let b1 : Buffer := { b with data := b.data.set b.pos input, pos := b.pos + 1 }
    if b1.pos = b1.data.length - 1 then
      some (Buffer.transcribe { b1 with pos := 0 })
    else
      some b1
  else
    none

/-- Push a sequence of samples one by one, as the callback installed by
`initialize_buffered_stream` (src/utils.rs lines 81-87) does for each
delivered block (`for &sample in data.iter() { ... guard.push(sample) }`;
the try_lock is modelled as succeeding, i.e. the uncontended case). -/
def pushAll (b : Buffer) : List Sample → Option Buffer
  | [] => some b
  | x :: xs =>
    match b.push x with
    | none => none
    | some b' => pushAll b' xs

/-- Accept a sequence of callback blocks in order; each block is pushed
sample by sample. -/
def acceptBlocks (b : Buffer) : List (List Sample) → Option Buffer
  | [] => some b
  | blk :: blks =>
    match pushAll b blk with
    | none => none
    | some b' => acceptBlocks b' blks

/-- Intermediate buffer state while filling a window: the `ys` samples of the
current cycle occupy the front of the storage, the remainder of the storage is
still zero, the cursor sits at `ys.length`, and `d` is the dispatch trace so
far. -/
def filling (C : Nat) (ys : List Sample) (d : List (List Sample)) (m : String) : Buffer :=
  { model := m, data := ys ++ List.replicate (C - ys.length) 0,
    pos := ys.length, dispatched := d }

theorem new_eq_filling (m : String) (C : Nat) :
    Buffer.new m C = filling C [] [] m := by
  simp [Buffer.new, filling]

theorem set_append_replicate (ys : List Sample) (k : Nat) (x : Sample)
    (hk : 1 ≤ k) :
    (ys ++ List.replicate k 0).set ys.length x
      = ys ++ x :: List.replicate (k - 1) 0 := by
  induction ys with
  | nil =>
    obtain ⟨j, rfl⟩ : ∃ j, k = j + 1 := ⟨k - 1, by omega⟩
    simp [List.replicate_succ]
  | cons y ys ih =>
    simpa [List.set] using ih

/-- Pushing a sample into a partially filled window that is still at least two
slots away from the trigger point stores the sample and advances the cursor,
with no dispatch. -/
theorem push_filling_step (C : Nat) (ys : List Sample) (d : List (List Sample))
    (m : String) (x : Sample) (hlen : ys.length + 1 < C - 1) :
    (filling C ys d m).push x = some (filling C (ys ++ [x]) d m) := by
  have hdl : (filling C ys d m).data.length = C := by
    simp [filling]; omega
  have hin : (filling C ys d m).pos < (filling C ys d m).data.length := by
    simp [filling]; omega
  unfold Buffer.push
  rw [dif_pos hin]
  simp only [filling, List.length_set, List.length_append, List.length_replicate]
  rw [if_neg (by omega)]
  rw [set_append_replicate ys (C - ys.length) x (by omega)]
  simp [List.append_assoc, Nat.sub_sub]

/-- Pushing the sample that brings the cursor to `C - 1` triggers the
dispatch: the window handed to `transcribe` is the cycle's samples followed by
a final zero slot that was never written, the storage is cleared and the
cursor returns to 0. -/
theorem push_filling_dispatch (C : Nat) (ys : List Sample) (d : List (List Sample))
    (m : String) (x : Sample) (htrig : ys.length + 1 = C - 1) (hC : 2 ≤ C) :
    (filling C ys d m).push x
      = some { model := m, data := List.replicate C 0, pos := 0,
               dispatched := d ++ [ys ++ x :: [(0 : Sample)]] } := by
  have hin : (filling C ys d m).pos < (filling C ys d m).data.length := by
    simp [filling]; omega
  unfold Buffer.push
  rw [dif_pos hin]
  simp only [filling, List.length_set, List.length_append, List.length_replicate]
  rw [if_pos (by omega)]
  rw [set_append_replicate ys (C - ys.length) x (by omega)]
  have h2 : C - ys.length - 1 = 1 := by omega
  simp [Buffer.transcribe, h2, List.replicate_succ]
  have h3 : C = ys.length + 2 := by omega
  rw [h3]
  rfl

/-- Pushing a run of samples that stays strictly inside the window fills it
left to right with no dispatch. -/
theorem pushAll_filling (C : Nat) (m : String) :
    ∀ (xs ys : List Sample) (d : List (List Sample)),
      ys.length + xs.length + 2 ≤ C →
      pushAll (filling C ys d m) xs = some (filling C (ys ++ xs) d m) := by
  intro xs
  induction xs with
  | nil => intro ys d _; simp [pushAll]
  | cons x xs ih =>
    intro ys d hle
    have hstep := push_filling_step C ys d m x (by simp at hle ⊢; omega)
    simp only [pushAll, hstep]
    have := ih (ys ++ [x]) d (by simp at hle ⊢; omega)
    simpa [List.append_assoc] using this

theorem pushAll_append (xs zs : List Sample) : ∀ b : Buffer,
    pushAll b (xs ++ zs)
      = match pushAll b xs with
        | none => none
        | some b' => pushAll b' zs := by
  induction xs with
  | nil => intro b; simp [pushAll]
  | cons x xs ih =>
    intro b
    simp only [List.cons_append, pushAll]
    cases b.push x <;> simp [ih]

theorem pushAll_cons_some (b b' : Buffer) (x : Sample) (xs : List Sample)
    (h : b.push x = some b') : pushAll b (x :: xs) = pushAll b' xs := by
  simp [pushAll, h]

/-- Full characterisation of a fresh buffer run that crosses the trigger
exactly once: `C - 1 ≤ xs.length ≤ 2·C - 3` samples pushed into a fresh
buffer of capacity `C` dispatch exactly one window, namely the first `C - 1`
samples followed by a zero, and leave the remaining samples at the front of
the freshly cleared storage. -/
theorem pushAll_new_one_dispatch (C : Nat) (m : String) (xs : List Sample)
    (hC : 2 ≤ C) (hlo : C - 1 ≤ xs.length) (hhi : xs.length + 3 ≤ 2 * C) :
    pushAll (Buffer.new m C) xs
      = some (filling C (xs.drop (C - 1)) [xs.take (C - 1) ++ [0]] m) := by
  have hC2 : C - 2 < xs.length := by omega
  have h21 : C - 2 + 1 = C - 1 := by omega
  have hdrop : xs.drop (C - 2) = xs[C - 2] :: xs.drop (C - 1) := by
    rw [List.drop_eq_getElem_cons hC2, h21]
  have htke : xs.take (C - 1) = xs.take (C - 2) ++ [xs[C - 2]] := by
    have h1 : C - 1 = (C - 2) + 1 := by omega
    rw [h1, List.take_succ, List.getElem?_eq_getElem hC2]
    rfl
  have hlt : (xs.take (C - 2)).length = C - 2 := by
    rw [List.length_take]
    omega
  have hld : (xs.drop (C - 1)).length = xs.length - (C - 1) := List.length_drop _ _
  conv_lhs => rw [← List.take_append_drop (C - 2) xs, hdrop]
  rw [pushAll_append, new_eq_filling]
  rw [pushAll_filling C m (xs.take (C - 2)) [] []
    (by simp only [List.length_nil, hlt]; omega)]
  simp only [List.nil_append]
  rw [pushAll_cons_some _ _ _ _
    (push_filling_dispatch C (xs.take (C - 2)) [] m (xs[C - 2]) (by rw [hlt]; omega) hC)]
  have hrec : ({ model := m, data := List.replicate C 0, pos := 0,
                 dispatched := [] ++ [xs.take (C - 2) ++ xs[C - 2] :: [(0 : Sample)]] } : Buffer)
      = filling C [] [xs.take (C - 1) ++ [0]] m := by
    have hw : xs.take (C - 1) ++ [(0 : Sample)]
        = xs.take (C - 2) ++ xs[C - 2] :: [(0 : Sample)] := by
      rw [htke, List.append_assoc]
      rfl
    unfold filling
    rw [hw]
    simp
  rw [hrec, pushAll_filling C m (xs.drop (C - 1)) [] _
    (by simp only [List.length_nil, hld]; omega)]
  simp only [List.nil_append]

/-- Invariant maintained by `Buffer.push` for buffers of size at least 2: the
storage length is fixed and the cursor stays at least two slots below it. -/
def BufferInv (s : Nat) (b : Buffer) : Prop :=
  b.data.length = s ∧ b.pos + 1 < s

theorem push_preserves_inv (s : Nat) (b : Buffer) (x : Sample)
    (h : BufferInv s b) :
    ∃ b', b.push x = some b' ∧ BufferInv s b' := by
  obtain ⟨hlen, hpos⟩ := h
  have hin : b.pos < b.data.length := by omega
  unfold Buffer.push
  rw [dif_pos hin]
  simp only [List.length_set]
  by_cases hd : b.pos + 1 = b.data.length - 1
  · rw [if_pos hd]
    refine ⟨_, rfl, ?_, ?_⟩
    · simp [Buffer.transcribe, List.length_set, hlen]
    · simp [Buffer.transcribe]
      omega
  · rw [if_neg hd]
    refine ⟨_, rfl, ?_, ?_⟩
    · simp [List.length_set, hlen]
    · rw [hlen] at hd
      simp
      omega

theorem pushAll_isSome (s : Nat) : ∀ (xs : List Sample) (b : Buffer),
    BufferInv s b → (pushAll b xs).isSome = true := by
  intro xs
  induction xs with
  | nil => intro b _; simp [pushAll]
  | cons x xs ih =>
    intro b hb
    obtain ⟨b', hp, hb'⟩ := push_preserves_inv s b x hb
    rw [pushAll_cons_some b b' x xs hp]
    exact ih b' hb'

/-- C1: the claimed behaviour is that pushing exactly `C` samples into a
fresh capacity-`C` buffer dispatches one full window and resets the buffer to
its empty initial state (cursor 0, nothing retained).  The code as written
instead triggers at `pos == data.len() - 1`: exactly one window of length `C`
is dispatched, but it is the first `C - 1` samples followed by a zero that
was never written, and after all `C` samples the cursor is 1 and the final
sample is retained at index 0 of the storage — not the empty initial state. -/
theorem c1_full_capacity_trace (C : Nat) (m : String) (xs : List Sample)
    (hC : 3 ≤ C) (hlen : xs.length = C) :
    ∃ b : Buffer, pushAll (Buffer.new m C) xs = some b ∧
      b.dispatched = [xs.take (C - 1) ++ [0]] ∧
      (xs.take (C - 1) ++ [0]).length = C ∧
      b.pos = 1 ∧
      b.data = xs.drop (C - 1) ++ List.replicate (C - 1) 0 := by
  refine ⟨_, pushAll_new_one_dispatch C m xs (by omega) (by omega) (by omega),
    rfl, ?_, ?_, ?_⟩
  · simp [List.length_take]
    omega
  · simp [filling, List.length_drop, hlen]
    omega
  · simp [filling]
    omega

theorem c1_full_capacity_trace_witness :
    ∃ b : Buffer,
      pushAll (Buffer.new "model.bin" 768) (List.replicate 768 1) = some b ∧
      b.dispatched = [(List.replicate 768 (1 : Sample)).take 767 ++ [0]] ∧
      ((List.replicate 768 (1 : Sample)).take 767 ++ [0]).length = 768 ∧
      b.pos = 1 ∧
      b.data = (List.replicate 768 (1 : Sample)).drop 767 ++ List.replicate 767 0 :=
  c1_full_capacity_trace 768 "model.bin" (List.replicate 768 1)
    (by norm_num) (by rw [List.length_replicate])

set_option maxRecDepth 8000 in
/-- C2 counterexample: a single block of length `C + K` with `C = 6`, `K = 1`
pushed through the buffered-stream callback.  The claim says the one dispatch
holds the first `C = 6` samples and the overflow sample is absent from the
next window; in fact the dispatched window is `[1, 2, 3, 4, 5, 0]` (not the
first six samples) and the overflow sample `7` sits in the buffer feeding the
next window. -/
theorem c2_counterexample :
    pushAll (Buffer.new "m" 6) [1, 2, 3, 4, 5, 6, 7]
      = some { model := "m", data := [6, 7, 0, 0, 0, 0], pos := 2,
               dispatched := [[1, 2, 3, 4, 5, 0]] } ∧
    ([1, 2, 3, 4, 5, 0] : List Sample) ≠ [1, 2, 3, 4, 5, 6] ∧
    (7 : Sample) ∈ ([6, 7, 0, 0, 0, 0] : List Sample) :=
  ⟨by decide, by decide, by decide⟩

/-- C2 (amended): for `0 < K ≤ C - 3`, a single block of `C + K` samples into
a fresh capacity-`C` buffer triggers exactly one dispatch whose window is the
first `C - 1` samples of the block followed by a zero (not the first `C`
samples), and the remaining `K + 1` samples of the block are carried into the
storage for the next window — retained, not dropped — leaving the cursor at
`K + 1`. -/
theorem c2_overflow_carryover (C K : Nat) (m : String) (block : List Sample)
    (hK : 0 < K) (hCK : K + 3 ≤ C) (hlen : block.length = C + K) :
    ∃ b : Buffer, pushAll (Buffer.new m C) block = some b ∧
      b.dispatched = [block.take (C - 1) ++ [0]] ∧
      b.data = block.drop (C - 1) ++ List.replicate (C - (K + 1)) 0 ∧
      b.pos = K + 1 ∧
      ∀ s ∈ block.drop (C - 1), s ∈ b.data := by
  refine ⟨_, pushAll_new_one_dispatch C m block (by omega) (by omega) (by omega),
    rfl, ?_, ?_, ?_⟩
  · simp [filling]
    omega
  · simp [filling, List.length_drop, hlen]
    omega
  · intro s hs
    simp only [filling]
    exact List.mem_append_left _ hs

theorem c2_overflow_carryover_witness :
    ∃ b : Buffer, pushAll (Buffer.new "m" 6) (List.replicate 7 2) = some b ∧
      b.dispatched = [(List.replicate 7 (2 : Sample)).take 5 ++ [0]] ∧
      b.data = (List.replicate 7 (2 : Sample)).drop 5 ++ List.replicate 4 0 ∧
      b.pos = 2 ∧
      ∀ s ∈ (List.replicate 7 (2 : Sample)).drop 5, s ∈ b.data :=
  c2_overflow_carryover 6 1 "m" (List.replicate 7 2)
    (by norm_num) (by norm_num) (by rw [List.length_replicate])

/-- C3: whenever the fill trigger fires (the advanced cursor reaches
`data.len() - 1`), the push leaves the buffer reset before any further sample
is accepted: cursor 0, storage cleared to all zeros, storage length
unchanged. -/
theorem c3_reset_on_trigger (b : Buffer) (x : Sample)
    (hin : b.pos < b.data.length) (htrig : b.pos + 1 = b.data.length - 1) :
    ∃ b' : Buffer, b.push x = some b' ∧ b'.pos = 0 ∧
      b'.data = List.replicate b.data.length 0 ∧
      b'.data.length = b.data.length := by
  unfold Buffer.push
  rw [dif_pos hin]
  simp only [List.length_set]
  rw [if_pos htrig]
  refine ⟨_, rfl, rfl, ?_, ?_⟩
  · simp [Buffer.transcribe, List.length_set]
  · simp [Buffer.transcribe, List.length_set]

theorem c3_reset_on_trigger_witness :
    ∃ b' : Buffer, (Buffer.mk "m" [5, 0, 0] 1 []).push 9 = some b' ∧
      b'.pos = 0 ∧ b'.data = List.replicate 3 0 ∧ b'.data.length = 3 :=
  c3_reset_on_trigger (Buffer.mk "m" [5, 0, 0] 1 []) 9 (by decide) (by decide)

/-- C9: for every buffer created with size at least 2, `push` never indexes
out of bounds no matter how many samples arrive; for size 0 the very first
push indexes past the end of the storage, and for size 1 the second push
does. -/
theorem c9_bounds (m : String) (s : Nat) (h : 2 ≤ s) (xs : List Sample) :
    (pushAll (Buffer.new m s) xs).isSome = true ∧
    (∀ x : Sample, (Buffer.new m 0).push x = none) ∧
    (∀ x y : Sample, pushAll (Buffer.new m 1) [x, y] = none) := by
  refine ⟨pushAll_isSome s xs (Buffer.new m s)
      ⟨by simp [Buffer.new], by simp [Buffer.new]; omega⟩,
    fun x => rfl, fun x y => rfl⟩

theorem c9_bounds_witness :
    (pushAll (Buffer.new "model.bin" 2) [1, 2, 3]).isSome = true ∧
    (∀ x : Sample, (Buffer.new "model.bin" 0).push x = none) ∧
    (∀ x y : Sample, pushAll (Buffer.new "model.bin" 1) [x, y] = none) :=
  c9_bounds "model.bin" 2 (by norm_num) [1, 2, 3]

/-- Native sample formats of the audio backend (cpal `SampleFormat`). -/
inductive SampleFormat where
  | I8 | I16 | I32 | I64 | U8 | U16 | U32 | U64 | F32 | F64
deriving DecidableEq

/-- Printed name of a sample format, as the backend displays it. -/
def SampleFormat.fmtName : SampleFormat → String
  | .I8 => "i8"
  | .I16 => "i16"
  | .I32 => "i32"
  | .I64 => "i64"
  | .U8 => "u8"
  | .U16 => "u16"
  | .U32 => "u32"
  | .U64 => "u64"
  | .F32 => "f32"
  | .F64 => "f64"

/-- Identity sample conversion: every arm of `initialize_write_stream`
instantiates `write_input_data::<T, U>` with `U = T`, and `U::from_sample` at
`U = T` is the identity. -/
def from_sample_self (s : Sample) : Sample := s

/-- Format dispatch of `initialize_write_stream` (src/utils.rs lines
98-128): the four supported formats (`I8`, `I16`, `I32`, `F32`) build the
stream and install `write_input_data::<T, T>`; any other format is rejected
with a configuration error before any stream is built.  A successfully built
stream is represented by the sample conversion its callback applies. -/
def initialize_write_stream (fmt : SampleFormat) :
    Except String (Sample → Sample) :=
  match fmt with
  | .I8 => .ok from_sample_self
  | .I16 => .ok from_sample_self
  | .I32 => .ok from_sample_self
  | .F32 => .ok from_sample_self
  | f => .error ("Unsupported sample format " ++ f.fmtName)

/-- `initialize_buffered_stream` (src/utils.rs lines 75-89) performs no
format inspection at all: `config.into()` erases the sample format from the
configuration and the callback is built for `f32` samples unconditionally,
so this function never raises a format configuration error of its own
(device-level build failures of the backend are outside this model). -/
def initialize_buffered_stream (_fmt : SampleFormat) : Except String Unit :=
  .ok ()

/-- C6 counterexample: for the unsupported format `U16`, opening the
buffered transcription stream does not return a configuration error — the
repository's code contains no format check on that path — while the
file-writing stream does reject it.  This falsifies the claim that the
startup format check holds for both streams. -/
theorem c6_counterexample :
    initialize_buffered_stream SampleFormat.U16 = Except.ok () ∧
    (∃ e, initialize_write_stream SampleFormat.U16 = Except.error e) :=
  ⟨rfl, "Unsupported sample format u16", rfl⟩

/-- C6 (amended): an unsupported sample format causes `initialize_write_stream`
to return a configuration error before any stream exists, and no format error
can arise mid-stream; `initialize_buffered_stream`, however, performs no
format check and opens without a configuration error. -/
theorem c6_format_check (fmt : SampleFormat)
    (h : fmt ∉ [SampleFormat.I8, SampleFormat.I16, SampleFormat.I32,
                SampleFormat.F32]) :
    (∃ e, initialize_write_stream fmt = Except.error e) ∧
    initialize_buffered_stream fmt = Except.ok () := by
  refine ⟨?_, rfl⟩
  cases fmt <;> simp_all [initialize_write_stream]

theorem c6_format_check_witness :
    (∃ e, initialize_write_stream SampleFormat.U64 = Except.error e) ∧
    initialize_buffered_stream SampleFormat.U64 = Except.ok () :=
  c6_format_check SampleFormat.U64 (by decide)

/-- Full-scale minimum sample value of each supported format: the most
negative representable integer, and -1.0 for 32-bit float.  Unsupported
formats never build a stream, so their value here is irrelevant. -/
def fullScaleMin : SampleFormat → Sample
  | .I8 => -128
  | .I16 => -32768
  | .I32 => -2147483648
  | .F32 => -1
  | _ => 0

/-- Full-scale maximum sample value of each supported format. -/
def fullScaleMax : SampleFormat → Sample
  | .I8 => 127
  | .I16 => 32767
  | .I32 => 2147483647
  | .F32 => 1
  | _ => 0

/-- C8: for every sample format the write stream accepts, the conversion its
capture callback applies maps the format's minimum and maximum representable
values to the target format's full-scale values (the target format equals the
native format in every arm), and is in fact the identity on every sample, so
the standard linear full-scale mapping is preserved with no added scale
error. -/
theorem c8_full_scale (fmt : SampleFormat) (conv : Sample → Sample)
    (h : initialize_write_stream fmt = Except.ok conv) :
    conv (fullScaleMin fmt) = fullScaleMin fmt ∧
    conv (fullScaleMax fmt) = fullScaleMax fmt ∧
    ∀ q : Sample, conv q = q := by
  cases fmt <;> simp [initialize_write_stream] at h <;> subst h <;>
    exact ⟨rfl, rfl, fun q => rfl⟩

theorem c8_full_scale_witness :
    from_sample_self (fullScaleMin SampleFormat.I16)
      = fullScaleMin SampleFormat.I16 ∧
    from_sample_self (fullScaleMax SampleFormat.I16)
      = fullScaleMax SampleFormat.I16 ∧
    ∀ q : Sample, from_sample_self q = q :=
  c8_full_scale SampleFormat.I16 from_sample_self rfl

/-- `write_input_data` (src/utils.rs lines 58-73): the writer handle is
shared behind a mutex and is `Option`al (finalize `take`s it); when the
handle is present, every sample of the block is converted with
`U::from_sample` and appended in arrival order (per-sample write errors are
discarded by `.ok()`); when the handle is absent the call does nothing and
reports no error.  The try_lock is modelled as succeeding — the uncontended
case — and the container is modelled as the list of samples written so
far. -/
def write_input_data (conv : Sample → Sample) (input : List Sample)
    (writer : Option (List Sample)) : Option (List Sample) :=
  match writer with
  | none => none
  | some ws => some (ws ++ input.map conv)

/-- Deliver a sequence of blocks to the file-sink callback, in order. -/
def writeBlocks (conv : Sample → Sample) (blocks : List (List Sample))
    (writer : Option (List Sample)) : Option (List Sample) :=
  blocks.foldl (fun w blk => write_input_data conv blk w) writer

/-- Modelled from the spec: the finalized container declares one frame per
written mono sample, so its declared frame count is the number of samples
written.  (The WavWriter internals live in the external hound crate, not in
this repository.) -/
def framesDeclared (ws : List Sample) : Nat := ws.length

/-- C4: once finalize has taken the writer handle, every subsequent
`write_input_data` call is silently dropped: it writes nothing, leaves the
state unchanged, and has no error channel on which to report anything. -/
theorem c4_finalized_writes_dropped (conv : Sample → Sample)
    (input : List Sample) :
    write_input_data conv input none = none := rfl

theorem writeBlocks_some (conv : Sample → Sample) :
    ∀ (blocks : List (List Sample)) (ws : List Sample),
      writeBlocks conv blocks (some ws)
        = some (ws ++ (blocks.map (List.map conv)).flatten) := by
  intro blocks
  induction blocks with
  | nil => intro ws; simp [writeBlocks]
  | cons blk blks ih =>
    intro ws
    show writeBlocks conv blks (write_input_data conv blk (some ws)) = _
    rw [show write_input_data conv blk (some ws) = some (ws ++ blk.map conv)
      from rfl, ih]
    simp [List.append_assoc]

/-- C7: starting from a freshly created container, accepting any sequence of
blocks while the sink is open appends exactly the concatenation of the
blocks, in arrival order (the installed conversion being the identity for
every supported format), and the declared frame count after finalize equals
the total number of accepted samples. -/
theorem c7_append_order (blocks : List (List Sample)) :
    writeBlocks from_sample_self blocks (some []) = some blocks.flatten ∧
    framesDeclared blocks.flatten = (blocks.map List.length).sum := by
  have h1 : List.map from_sample_self = (id : List Sample → List Sample) :=
    funext fun l => by
      show List.map (fun s : Sample => s) l = l
      simp
  constructor
  · rw [writeBlocks_some, h1, List.map_id]
    simp
  · simp [framesDeclared, List.length_flatten]

/-- Chunk size of the offline Transcribe command (src/main.rs line 132):
`16000 * 10` samples. -/
def chunk_size : Nat := 16000 * 10

/-- Value of a sample list at an index, 0 when out of range; a total accessor
used to state facts about the chunk table. -/
def valAt : List Sample → Nat → Sample
  | [], _ => 0
  | x :: _, 0 => x
  | _ :: xs, n + 1 => valAt xs n

/-- Row of a chunk table at an index, `[]` when out of range. -/
def rowAt : List (List Sample) → Nat → List Sample
  | [], _ => []
  | r :: _, 0 => r
  | _ :: rs, n + 1 => rowAt rs n

/-- One iteration of the fill loop of the Transcribe command:
`chunks[i / chunk_size][i % chunk_size] = x` (src/main.rs line 135). -/
def setChunk (chunks : List (List Sample)) (i : Nat) (x : Sample) :
    List (List Sample) :=
  chunks.set (i / chunk_size)
    ((rowAt chunks (i / chunk_size)).set (i % chunk_size) x)

/-- The `for (i, sample) in samples.iter().enumerate()` loop of the
Transcribe command (src/main.rs lines 134-136), with `i` the index of the
next sample. -/
def fillChunks : List (List Sample) → Nat → List Sample → List (List Sample)
  | chunks, _, [] => chunks
  | chunks, i, s :: rest => fillChunks (setChunk chunks i s) (i + 1) rest

/-- Chunk table built by the Transcribe command (src/main.rs lines 132-136):
`samples.len() / chunk_size + 1` rows of `chunk_size` zeros, filled in place
by the enumerate loop.  Every row of the result is then dispatched to the
inference engine in order by the `for chunk in chunks` loop (lines
140-149). -/
def transcribeChunks (samples : List Sample) : List (List Sample) :=
  fillChunks
    (List.replicate (samples.length / chunk_size + 1)
      (List.replicate chunk_size 0))
    0 samples

theorem valAt_set_self (l : List Sample) (n : Nat) (x : Sample)
    (h : n < l.length) : valAt (l.set n x) n = x := by
  induction l generalizing n with
  | nil => simp at h
  | cons a l ih =>
    cases n with
    | zero => rfl
    | succ n => exact ih n (by simpa using h)

theorem valAt_set_ne (l : List Sample) (n k : Nat) (x : Sample)
    (h : n ≠ k) : valAt (l.set n x) k = valAt l k := by
  induction l generalizing n k with
  | nil => rfl
  | cons a l ih =>
    cases n with
    | zero =>
      cases k with
      | zero => exact absurd rfl h
      | succ k => rfl
    | succ n =>
      cases k with
      | zero => rfl
      | succ k => exact ih n k (by omega)

theorem rowAt_set_self (l : List (List Sample)) (n : Nat) (r : List Sample)
    (h : n < l.length) : rowAt (l.set n r) n = r := by
  induction l generalizing n with
  | nil => simp at h
  | cons a l ih =>
    cases n with
    | zero => rfl
    | succ n => exact ih n (by simpa using h)

theorem rowAt_set_ne (l : List (List Sample)) (n k : Nat) (r : List Sample)
    (h : n ≠ k) : rowAt (l.set n r) k = rowAt l k := by
  induction l generalizing n k with
  | nil => rfl
  | cons a l ih =>
    cases n with
    | zero =>
      cases k with
      | zero => exact absurd rfl h
      | succ k => rfl
    | succ n =>
      cases k with
      | zero => rfl
      | succ k => exact ih n k (by omega)

theorem rowAt_replicate (n j : Nat) (r : List Sample) (h : j < n) :
    rowAt (List.replicate n r) j = r := by
  induction n generalizing j with
  | zero => omega
  | succ n ih =>
    cases j with
    | zero => rfl
    | succ j => exact ih j (by omega)

theorem valAt_replicate_zero (n k : Nat) :
    valAt (List.replicate n 0) k = 0 := by
  induction n generalizing k with
  | zero => rfl
  | succ n ih =>
    cases k with
    | zero => rfl
    | succ k => exact ih k

theorem set_oob (l : List (List Sample)) (n : Nat) (r : List Sample)
    (h : l.length ≤ n) : l.set n r = l := by
  induction l generalizing n with
  | nil => rfl
  | cons a l ih =>
    cases n with
    | zero => simp at h
    | succ n => simp [List.set]; exact ih n (by simpa using h)

theorem div_mod_unique_cs (i j mIdx : Nat) (hm : mIdx < chunk_size) :
    j * chunk_size + mIdx = i ↔ j = i / chunk_size ∧ mIdx = i % chunk_size := by
  unfold chunk_size at *
  omega

theorem length_setChunk (chunks : List (List Sample)) (i : Nat) (x : Sample) :
    (setChunk chunks i x).length = chunks.length := by
  simp [setChunk]

theorem length_fillChunks :
    ∀ (xs : List Sample) (chunks : List (List Sample)) (i : Nat),
      (fillChunks chunks i xs).length = chunks.length := by
  intro xs
  induction xs with
  | nil => intro chunks i; rfl
  | cons s rest ih =>
    intro chunks i
    rw [show fillChunks chunks i (s :: rest)
      = fillChunks (setChunk chunks i s) (i + 1) rest from rfl]
    rw [ih, length_setChunk]

/-- All rows of a chunk table have the configured chunk size. -/
def RowsOK (chunks : List (List Sample)) : Prop :=
  ∀ r, r < chunks.length → (rowAt chunks r).length = chunk_size

theorem rowsOK_setChunk (chunks : List (List Sample)) (i : Nat) (x : Sample)
    (h : RowsOK chunks) : RowsOK (setChunk chunks i x) := by
  intro r hr
  rw [length_setChunk] at hr
  by_cases he : i / chunk_size = r
  · subst he
    rw [setChunk, rowAt_set_self _ _ _ hr, List.length_set]
    exact h _ hr
  · rw [setChunk, rowAt_set_ne _ _ _ _ he]
    exact h r hr

theorem valAt_setChunk_self (chunks : List (List Sample)) (i : Nat) (x : Sample)
    (h : i / chunk_size < chunks.length)
    (hrow : (rowAt chunks (i / chunk_size)).length = chunk_size) :
    valAt (rowAt (setChunk chunks i x) (i / chunk_size)) (i % chunk_size) = x := by
  rw [setChunk, rowAt_set_self _ _ _ h, valAt_set_self]
  rw [hrow]
  exact Nat.mod_lt _ (by unfold chunk_size; omega)

theorem valAt_setChunk_ne (chunks : List (List Sample)) (i : Nat) (x : Sample)
    (j mIdx : Nat) (hne : ¬(j = i / chunk_size ∧ mIdx = i % chunk_size)) :
    valAt (rowAt (setChunk chunks i x) j) mIdx
      = valAt (rowAt chunks j) mIdx := by
  by_cases hj : i / chunk_size = j
  · subst hj
    have hmn : i % chunk_size ≠ mIdx := fun hcon => hne ⟨rfl, hcon.symm⟩
    by_cases hlt : i / chunk_size < chunks.length
    · rw [setChunk, rowAt_set_self _ _ _ hlt, valAt_set_ne _ _ _ _ hmn]
    · rw [setChunk, set_oob _ _ _ (by omega)]
  · rw [setChunk, rowAt_set_ne _ _ _ _ hj]

/-- Characterisation of the enumerate loop: starting at index `i`, entry
`(j, mIdx)` of the filled table holds the sample whose enumerate index is
`j * chunk_size + mIdx` when that index falls in the processed range, and is
untouched otherwise. -/
theorem fillChunks_valAt :
    ∀ (xs : List Sample) (chunks : List (List Sample)) (i j mIdx : Nat),
      RowsOK chunks →
      i + xs.length ≤ chunks.length * chunk_size →
      mIdx < chunk_size → j < chunks.length →
      valAt (rowAt (fillChunks chunks i xs) j) mIdx
        = if i ≤ j * chunk_size + mIdx ∧ j * chunk_size + mIdx < i + xs.length
          then valAt xs (j * chunk_size + mIdx - i)
          else valAt (rowAt chunks j) mIdx := by
  intro xs
  induction xs with
  | nil =>
    intro chunks i j mIdx _ _ _ _
    rw [show fillChunks chunks i [] = chunks from rfl,
      if_neg (by simp only [List.length_nil]; omega)]
  | cons s rest ih =>
    intro chunks i j mIdx hrows hbound hm hj
    rw [show fillChunks chunks i (s :: rest)
      = fillChunks (setChunk chunks i s) (i + 1) rest from rfl]
    rw [ih (setChunk chunks i s) (i + 1) j mIdx (rowsOK_setChunk _ _ _ hrows)
      (by rw [length_setChunk]; simp only [List.length_cons] at hbound; omega)
      hm (by rw [length_setChunk]; exact hj)]
    by_cases h1 : i + 1 ≤ j * chunk_size + mIdx ∧
        j * chunk_size + mIdx < i + 1 + rest.length
    · rw [if_pos h1, if_pos (by simp only [List.length_cons]; omega)]
      have ht : j * chunk_size + mIdx - i = (j * chunk_size + mIdx - (i + 1)) + 1 := by
        omega
      rw [ht]
      rfl
    · rw [if_neg h1]
      by_cases h2 : j * chunk_size + mIdx = i
      · obtain ⟨hje, hme⟩ := (div_mod_unique_cs i j mIdx hm).mp h2
        subst hje
        subst hme
        rw [valAt_setChunk_self chunks i s hj (hrows _ hj)]
        rw [if_pos (by simp only [List.length_cons]; unfold chunk_size at *; omega)]
        have h0 : i / chunk_size * chunk_size + i % chunk_size - i = 0 := by
          unfold chunk_size at *
          omega
        rw [h0]
        rfl
      · rw [valAt_setChunk_ne chunks i s j mIdx
          (fun hcon => h2 ((div_mod_unique_cs i j mIdx hm).mpr hcon))]
        rw [if_neg (by simp at h1 ⊢; omega)]

/-- Entries of the Transcribe chunk table: position `mIdx` of chunk `j` holds
input sample `j * chunk_size + mIdx` when that index is within the input,
and the zero padding otherwise. -/
theorem transcribeChunks_valAt (samples : List Sample) (j mIdx : Nat)
    (hm : mIdx < chunk_size) (hj : j < samples.length / chunk_size + 1) :
    valAt (rowAt (transcribeChunks samples) j) mIdx
      = if j * chunk_size + mIdx < samples.length
        then valAt samples (j * chunk_size + mIdx)
        else 0 := by
  unfold transcribeChunks
  have hrows : RowsOK (List.replicate (samples.length / chunk_size + 1)
      (List.replicate chunk_size (0 : Sample))) := by
    intro r hr
    rw [List.length_replicate] at hr
    rw [rowAt_replicate _ _ _ hr, List.length_replicate]
  rw [fillChunks_valAt samples _ 0 j mIdx hrows
    (by rw [List.length_replicate]; unfold chunk_size at *; omega)
    hm (by rw [List.length_replicate]; exact hj)]
  rw [rowAt_replicate _ _ _ hj]
  by_cases hcond : j * chunk_size + mIdx < samples.length
  · rw [if_pos (by omega), if_pos hcond]
    rw [Nat.sub_zero]
  · rw [if_neg (by omega), if_neg hcond, valAt_replicate_zero]

theorem eq_replicate_of_valAt :
    ∀ (l : List Sample) (n : Nat), l.length = n →
      (∀ k, k < n → valAt l k = 0) → l = List.replicate n 0 := by
  intro l
  induction l with
  | nil =>
    intro n hl _
    rw [← hl]
    rfl
  | cons a l ih =>
    intro n hl hv
    cases n with
    | zero => simp at hl
    | succ n =>
      have ha : a = 0 := hv 0 (by omega)
      have ht : l = List.replicate n 0 :=
        ih n (by simpa using hl) (fun k hk => hv (k + 1) (by omega))
      rw [ha, ht, List.replicate_succ]

theorem rowsOK_fillChunks :
    ∀ (xs : List Sample) (chunks : List (List Sample)) (i : Nat),
      RowsOK chunks → RowsOK (fillChunks chunks i xs) := by
  intro xs
  induction xs with
  | nil => intro chunks i h; exact h
  | cons s rest ih =>
    intro chunks i h
    exact ih (setChunk chunks i s) (i + 1) (rowsOK_setChunk _ _ _ h)

theorem rowsOK_transcribeChunks (samples : List Sample) :
    RowsOK (transcribeChunks samples) := by
  unfold transcribeChunks
  apply rowsOK_fillChunks
  intro r hr
  rw [List.length_replicate] at hr
  rw [rowAt_replicate _ _ _ hr, List.length_replicate]

theorem length_transcribeChunks (samples : List Sample) :
    (transcribeChunks samples).length = samples.length / chunk_size + 1 := by
  unfold transcribeChunks
  rw [length_fillChunks, List.length_replicate]

/-- C10: for an input of any `n` samples, the offline Transcribe command
builds `n / chunk_size + 1` chunks (`chunk_size = 160000`), each of length
exactly `chunk_size`; input sample `i` sits at position `i % chunk_size` of
chunk `i / chunk_size`, and every chunk position whose flat index is at or
beyond the input length holds the zero padding; consequently, when `n` is a
positive exact multiple of `chunk_size`, the final chunk is entirely zero yet
still present in the table whose rows are all dispatched, in order, to the
inference engine. -/
theorem c10_chunking (samples : List Sample) :
    (transcribeChunks samples).length = samples.length / chunk_size + 1 ∧
    (∀ r, r < (transcribeChunks samples).length →
      (rowAt (transcribeChunks samples) r).length = chunk_size) ∧
    (∀ i, i < samples.length →
      valAt (rowAt (transcribeChunks samples) (i / chunk_size)) (i % chunk_size)
        = valAt samples i) ∧
    (∀ j mIdx, mIdx < chunk_size → j < samples.length / chunk_size + 1 →
      samples.length ≤ j * chunk_size + mIdx →
      valAt (rowAt (transcribeChunks samples) j) mIdx = 0) ∧
    (samples.length % chunk_size = 0 → 0 < samples.length →
      rowAt (transcribeChunks samples) (samples.length / chunk_size)
        = List.replicate chunk_size 0) := by
  have hcs : 0 < chunk_size := by unfold chunk_size; omega
  refine ⟨length_transcribeChunks samples,
    fun r hr => rowsOK_transcribeChunks samples r hr, ?_, ?_, ?_⟩
  · intro i hi
    have hmlt : i % chunk_size < chunk_size := Nat.mod_lt _ hcs
    have hdiv : i / chunk_size < samples.length / chunk_size + 1 := by
      unfold chunk_size at *
      omega
    have hi2 : i / chunk_size * chunk_size + i % chunk_size = i := by
      unfold chunk_size
      omega
    rw [transcribeChunks_valAt samples (i / chunk_size) (i % chunk_size) hmlt hdiv,
      hi2, if_pos hi]
  · intro j mIdx hm hj hpad
    rw [transcribeChunks_valAt samples j mIdx hm hj, if_neg (by omega)]
  · intro hmul _hpos
    refine eq_replicate_of_valAt _ chunk_size ?_ ?_
    · refine rowsOK_transcribeChunks samples _ ?_
      rw [length_transcribeChunks]
      omega
    · intro k hk
      have hfull : samples.length / chunk_size * chunk_size = samples.length := by
        unfold chunk_size at *
        omega
      rw [transcribeChunks_valAt samples (samples.length / chunk_size) k hk
        (by omega), if_neg (by omega)]

theorem c10_chunking_witness :
    (transcribeChunks (List.replicate 160000 1)).length
      = (List.replicate 160000 (1 : Sample)).length / chunk_size + 1 ∧
    (∀ r, r < (transcribeChunks (List.replicate 160000 (1 : Sample))).length →
      (rowAt (transcribeChunks (List.replicate 160000 (1 : Sample))) r).length
        = chunk_size) ∧
    (∀ i, i < (List.replicate 160000 (1 : Sample)).length →
      valAt (rowAt (transcribeChunks (List.replicate 160000 (1 : Sample)))
          (i / chunk_size)) (i % chunk_size)
        = valAt (List.replicate 160000 (1 : Sample)) i) ∧
    (∀ j mIdx, mIdx < chunk_size →
      j < (List.replicate 160000 (1 : Sample)).length / chunk_size + 1 →
      (List.replicate 160000 (1 : Sample)).length ≤ j * chunk_size + mIdx →
      valAt (rowAt (transcribeChunks (List.replicate 160000 (1 : Sample))) j)
        mIdx = 0) ∧
    ((List.replicate 160000 (1 : Sample)).length % chunk_size = 0 →
      0 < (List.replicate 160000 (1 : Sample)).length →
      rowAt (transcribeChunks (List.replicate 160000 (1 : Sample)))
          ((List.replicate 160000 (1 : Sample)).length / chunk_size)
        = List.replicate chunk_size 0) :=
  c10_chunking (List.replicate 160000 1)

end Hush

